import Mathlib

/-!
# Sparta `magefile.go`: command sequencing and source-file collection

A shallow embedding of `src/magefile.go` and the properties its specification
states about it.

Modelling conventions.

* Go strings are Lean strings.  The three string routines the build script
  relies on (`strings.Contains`, `filepath.Ext`, `strings.TrimSpace`) are
  written over the character list of the string; for well-formed UTF-8 text
  this agrees with Go's byte-level definitions, because the bytes they look
  for (`.`, `/`, and a whole needle) never occur inside a multi-byte rune.
* Everything outside the process is a field of `Env`: the subprocess runner
  `sh.Run`, the environment variables, the directory walk, `git rev-parse`,
  the clock and `ioutil.WriteFile`.  Each is an arbitrary function of an
  abstract state `σ`, so a theorem quantified over `Env σ` holds for every
  behaviour of the outside world.
* `World` adds two ghost logs to that state: every `sh.Run` invocation, with
  the arguments as they are handed over, and every `ioutil.WriteFile`
  invocation, oldest first.
* Go slices that are read again after they were handed to `sh.Run` are
  modelled with the array they point into: `append` may store in place, and
  `sh.Run` replaces every argument by its `os.Expand` text in the very slice
  it receives.
* A Go function either returns or panics: `Outcome`.
* `mageLog` only prints when mage is verbose and is left out.
-/

namespace Magefile

/-- Go `string`. -/
abbrev GoString := String

/-- Go `error` value (non-nil), identified by its message. -/
abbrev GoError := String

/-! ## Library routines used by the script -/

/-- Character-list core of `strings.Contains`: is `substr` a contiguous block
of the first argument?  Tries every start position from the left. -/
def containsChars : List Char → List Char → Bool
  | [], substr => substr.isEmpty
  | c :: rest, substr => substr.isPrefixOf (c :: rest) || containsChars rest substr

/-- Go `strings.Contains(s, substr)`. -/
def stringsContains (s substr : GoString) : Bool :=
  containsChars s.data substr.data

/-- Loop of Go `filepath.Ext`: `i` runs from `len(path) - 1` down to `0` and
stops at a path separator; the argument here is `i + 1`. -/
def extLoop (path : List Char) : Nat → List Char
  | 0 => []
  | i + 1 =>
    match path[i]? with
    | none => []
    | some c =>
      if c = '/' then []
      else if c = '.' then path.drop i
      else extLoop path i

/-- Go `filepath.Ext(path)` on a system whose separator is `/`. -/
def filepathExt (path : GoString) : GoString :=
  ⟨extLoop path.data path.data.length⟩

/-- Go `unicode.IsSpace`. -/
def isSpace (r : Char) : Bool :=
  let n := r.toNat
  if n ≤ 0xFF then
    n == 0x09 || n == 0x0A || n == 0x0B || n == 0x0C || n == 0x0D || n == 0x20
      || n == 0x85 || n == 0xA0
  else
    n == 0x1680 || (0x2000 ≤ n && n ≤ 0x200A) || n == 0x2028 || n == 0x2029
      || n == 0x202F || n == 0x205F || n == 0x3000

/-- Go `strings.TrimSpace(s)`: drop leading and trailing white space. -/
def stringsTrimSpace (s : GoString) : GoString :=
  ⟨(s.data.dropWhile isSpace).rdropWhile isSpace⟩

/-- The part of Go `fmt.Sprintf` the script uses: a template whose only verbs
are `%s`, each replaced by the next argument (a missing argument prints Go's
marker for it). -/
def sprintfChars : List Char → List GoString → List Char
  | [], _ => []
  | '%' :: 's' :: rest, a :: args => a.data ++ sprintfChars rest args
  | '%' :: 's' :: rest, [] => "%!s(MISSING)".data ++ sprintfChars rest []
  | c :: rest, args => c :: sprintfChars rest args

/-- Go `fmt.Sprintf(template, args...)` for `%s`-only templates. -/
def fmtSprintf (template : GoString) (args : List GoString) : GoString :=
  ⟨sprintfChars template.data args⟩

/-! ## The outside world -/

/-- One invocation of `sh.Run(cmd, args...)`. -/
structure Call where
  cmd : GoString
  args : List GoString
  deriving DecidableEq, Repr

/-- One call `filepath.Walk` makes to its callback: the path, whether the
entry is a directory (`info.IsDir()`), and the error Walk reports for it. -/
structure WalkEvent where
  path : GoString
  isDir : Bool
  err : Option GoError
  deriving DecidableEq, Repr

/-- What the script cannot decide itself, as functions of an abstract state. -/
structure Env (σ : Type) where
  /-- Result `sh.Run(cmd, args...)`: `none` is a nil error. -/
  run : GoString → List GoString → σ → Option GoError × σ
  /-- Value `os.Getenv(name)`. -/
  getenv : GoString → σ → GoString
  /-- The entries `filepath.Walk(".", fn)` presents to a callback that never
  returns an error, in walk order. -/
  walkEvents : σ → List WalkEvent
  /-- Running `git rev-parse HEAD`: the error of `cmd.Run()` and the captured
  standard output. -/
  gitRevParse : σ → Option GoError × GoString × σ
  /-- Text `%s` prints for `time.Now().UTC()`. -/
  now : σ → GoString × σ
  /-- Result `ioutil.WriteFile(path, content, perm)`. -/
  writeFile : GoString → GoString → σ → Option GoError × σ
  /-- Text `os.Expand(arg, os.Getenv)` gives for an argument: what `sh.Run`
  stores in place of each argument it is handed, before it starts the
  program. -/
  expand : GoString → σ → GoString
  /-- Spare capacity the runtime adds when `append` has to reallocate a slice
  of the given length. -/
  growCap : Nat → Nat

/-- State of the outside world plus the logs of what the script did to it. -/
structure World (σ : Type) where
  state : σ
  calls : List Call
  writes : List (GoString × GoString)

/-- Why a Go function stopped without returning. -/
inductive Panic where
  /-- Runtime error: index out of range. -/
  | indexOutOfRange
  /-- A dependency of the running task failed with this error. -/
  | fatal (err : GoError)
  deriving DecidableEq, Repr

/-- How a call of a Go function of result type `error` ends. -/
inductive Outcome where
  | returned (err : Option GoError)
  | panicked (cause : Panic)
  deriving DecidableEq, Repr

/-- A task or script fragment: runs in a world, ends with an outcome. -/
abbrev Step (σ : Type) := World σ → Outcome × World σ

variable {σ : Type}

/-- The call `sh.Run(cmd, args...)`, logged with the arguments as handed over.
When `args` is a slice of the caller, `sh.Run` also overwrites its cells with
their expansions; a caller that reads the slice again accounts for that with
`expandInPlace`.  `mageScript` hands over `eachCommand[1:]` and never reads
that command again, and `InstallBuildRequirements` passes its arguments one
by one, so only the loop of `goSourceApply` is affected. -/
def shRun (env : Env σ) (cmd : GoString) (args : List GoString) (w : World σ) :
    Option GoError × World σ :=
  let r := env.run cmd args w.state
  (r.1, { w with state := r.2, calls := w.calls ++ [⟨cmd, args⟩] })

/-- The call `ioutil.WriteFile(path, content, os.ModePerm)`, logged. -/
def ioutilWriteFile (env : Env σ) (path content : GoString) (w : World σ) :
    Option GoError × World σ :=
  let r := env.writeFile path content w.state
  (r.1, { w with state := r.2, writes := w.writes ++ [(path, content)] })

/-- Go `filepath.Walk(root, fn)` seen from the callback: `fn` is called on each
entry in turn; the first non-nil error it returns ends the walk and is Walk's
result; otherwise Walk returns nil.  Walk has no error of its own: the error
of an unreadable entry is handed to `fn`, and only what `fn` returns counts. -/
def filepathWalk {α : Type} (fn : α → WalkEvent → Option GoError × α) :
    List WalkEvent → α → Option GoError × α
  | [], acc => (none, acc)
  | ev :: rest, acc =>
    match fn acc ev with
    | (some e, acc') => (some e, acc')
    | (none, acc') => filepathWalk fn rest acc'

/-! ## `magefile.go` -/

def WORK_DIR : GoString := "./sparta"

def ignoreSubdirectoryPaths : List GoString :=
  [".vendor", ".sparta", ".vscode"]

/-- One command of `mageScript`: the body of its `for` loop up to the error
test.  `none` is the index-out-of-range panic of `eachCommand[0]`. -/
def runCommand (env : Env σ) (eachCommand : List GoString) (w : World σ) :
    Option (Option GoError × World σ) :=
  if eachCommand.length ≤ 1 then
    match eachCommand[0]? with
    | none => none
    | some program => some (shRun env program [] w)
  else
    match eachCommand[0]? with
    | none => none
    | some program => some (shRun env program (eachCommand.drop 1) w)

def mageScript (env : Env σ) : List (List GoString) → Step σ
  | [], w => (.returned none, w)
  | eachCommand :: rest, w =>
    match runCommand env eachCommand w with
    | none => (.panicked .indexOutOfRange, w)
    | some (some commandErr, w') => (.returned (some commandErr), w')
    | some (none, w') => mageScript env rest w'

/-- The `for ... range ignoreSubdirectoryPaths` loop of the walker, with its
`break`; the Boolean is the current value of `contains`. -/
def ignoreLoop (path : GoString) : List GoString → Bool → Bool
  | [], contains => contains
  | eachComponent :: rest, _ =>
    let contains := stringsContains path eachComponent
    if contains then contains else ignoreLoop path rest contains

/-- The closure `walker` of `goSourceFiles`; `files` is the captured slice.
Neither `info` nor `err` is read, and the result is always nil. -/
def walker (ignore : List GoString) (files : List GoString) (ev : WalkEvent) :
    Option GoError × List GoString :=
  let contains := ignoreLoop ev.path ignore false
  if !contains && (filepathExt ev.path == ".go") then
    (none, files ++ [ev.path])
  else
    (none, files)

/-- The function `goSourceFiles` for a given value of the package variable
`ignoreSubdirectoryPaths` and the entries the walk presents. -/
def goSourceFilesIn (ignore : List GoString) (events : List WalkEvent) :
    List GoString × Option GoError :=
  let r := filepathWalk (walker ignore) events []
  (r.2, r.1)

def goSourceFiles (events : List WalkEvent) : List GoString × Option GoError :=
  goSourceFilesIn ignoreSubdirectoryPaths events

/-- A Go slice of strings with the array it points into: the slice is the
first `len` cells of `backing`, and its capacity is the length of `backing`. -/
structure Slice where
  backing : List GoString
  len : Nat

/-- The elements of a slice. -/
def Slice.elems (s : Slice) : List GoString := s.backing.take s.len

/-- Go `append(s, x)`: with spare capacity the element is stored in the shared
array; otherwise a larger array is allocated and the old one is left alone. -/
def goAppend (grow : Nat → Nat) (s : Slice) (x : GoString) : Slice :=
  if s.len < s.backing.length then
    { backing := s.backing.set s.len x, len := s.len + 1 }
  else
    { backing := s.backing.take s.len ++ x :: List.replicate (grow s.len) "",
      len := s.len + 1 }

/-- What `sh.Run` does to the slice it is handed: `args[i] = os.Expand(args[i])`
for every cell of the slice, in the array the slice points into. -/
def expandInPlace (expand : GoString → GoString) (s : Slice) : Slice :=
  { s with backing := (s.backing.take s.len).map expand ++ s.backing.drop s.len }

/-- The loop of `goSourceApply` that copies `commandParts[1:]`. -/
def collectArgs (grow : Nat → Nat) : List GoString → Slice → Slice
  | [], commandArgs => commandArgs
  | eachPart :: rest, commandArgs => collectArgs grow rest (goAppend grow commandArgs eachPart)

/-- The per-file loop of `goSourceApply`.  `applyArgs...` hands the slice
itself to `sh.Run`, which expands its cells in place.  `commandArgs` keeps its
length, but when `append` stored in place its array is the one `applyArgs`
uses, so the next iteration finds in it what `sh.Run` left there. -/
def applyLoop (env : Env σ) (program : GoString) :
    List GoString → Slice → Step σ
  | [], _, w => (.returned none, w)
  | eachFile :: rest, commandArgs, w =>
    let applyArgs := goAppend env.growCap commandArgs eachFile
    let afterRun := expandInPlace (fun arg => env.expand arg w.state) applyArgs
    let shared : Slice :=
      if commandArgs.len < commandArgs.backing.length then
        { commandArgs with backing := afterRun.backing }
      else commandArgs
    match shRun env program applyArgs.elems w with
    | (some applyErr, w') => (.returned (some applyErr), w')
    | (none, w') => applyLoop env program rest shared w'

def goSourceApply (env : Env σ) (commandParts : List GoString) : Step σ := fun w =>
  match goSourceFiles (env.walkEvents w.state) with
  | (_, some goSourceFilesErr) => (.returned (some goSourceFilesErr), w)
  | (files, none) =>
    if commandParts.length ≤ 0 then
      (.returned (some "goSourceApply requires a command to apply to source files"), w)
    else
      let commandArgs : Slice :=
        if commandParts.length > 1 then
          collectArgs env.growCap (commandParts.drop 1) ⟨[], 0⟩
        else ⟨[], 0⟩
      match commandParts[0]? with
      | none => (.panicked .indexOutOfRange, w)
      | some program => applyLoop env program files commandArgs w

def buildInfoTemplate : GoString :=
  "package sparta\n\n// THIS FILE IS AUTOMATICALLY GENERATED\n// DO NOT EDIT\n// CREATED: %s\n\n// SpartaGitHash is the commit hash of this Sparta library\nconst SpartaGitHash = \"%s\"\n"

/-- The text `GenerateBuildInfo` writes, from the printed time and the captured
output of git: `fmt.Sprintf(buildInfoTemplate, now, TrimSpace(stdout))`. -/
def buildInfoContent (nowText gitStdout : GoString) : GoString :=
  fmtSprintf buildInfoTemplate [nowText, stringsTrimSpace gitStdout]

def GenerateBuildInfo (env : Env σ) : Step σ := fun w =>
  match env.gitRevParse w.state with
  | (some err, _, s1) => (.returned (some err), { w with state := s1 })
  | (none, stdout, s1) =>
    let t := env.now s1
    let updatedInfo := buildInfoContent t.1 stdout
    let r := ioutilWriteFile env "./buildinfo.go" updatedInfo { w with state := t.2 }
    (.returned r.1, r.2)

def requirements : List GoString :=
  [ "github.com/golang/dep/...",
    "honnef.co/go/tools/cmd/megacheck",
    "honnef.co/go/tools/cmd/gosimple",
    "honnef.co/go/tools/cmd/unused",
    "honnef.co/go/tools/cmd/staticcheck",
    "golang.org/x/tools/cmd/goimports",
    "github.com/fzipp/gocyclo",
    "github.com/golang/lint/golint",
    "github.com/mjibson/esc",
    "github.com/securego/gosec/cmd/gosec/..." ]

/-- The `for ... range requirements` loop of `InstallBuildRequirements`. -/
def installLoop (env : Env σ) : List GoString → Step σ
  | [], w => (.returned none, w)
  | eachDep :: rest, w =>
    match shRun env "go" ["get", env.getenv "GO_GET_FLAG" w.state, eachDep] w with
    | (some cmdErr, w') => (.returned (some cmdErr), w')
    | (none, w') => installLoop env rest w'

def InstallBuildRequirements (env : Env σ) : Step σ :=
  installLoop env requirements

def EnsureVet (env : Env σ) : Step σ :=
  goSourceApply env ["go", "tool", "vet"]

def EnsureLint (env : Env σ) : Step σ :=
  goSourceApply env ["golint"]

def EnsureFormatted (env : Env σ) : Step σ :=
  goSourceApply env ["goimports", "-d"]

def EnsureStaticChecks (env : Env σ) : Step σ := fun w =>
  match shRun env "megacheck" ["-ignore", "github.com/mweagle/Sparta/CONSTANTS.go:*"] w with
  | (some megacheckErr, w') => (.returned (some megacheckErr), w')
  | (none, w') =>
    let r := shRun env "gosec" ["-exclude=G204,G505,G401", "./..."] w'
    (.returned r.1, r.2)

/-- Modelled from the spec: `mg.SerialDeps` of the mage library, which is not
part of `src/`.  The prerequisites run to completion in the order declared,
each once; the first one that fails (returns an error or itself aborts) aborts
the calling task with that failure, before anything later runs.  `none` means
every prerequisite succeeded and the caller goes on. -/
def serialDeps : List (Step σ) → World σ → Option Panic × World σ
  | [], w => (none, w)
  | dep :: rest, w =>
    match dep w with
    | (.returned none, w') => serialDeps rest w'
    | (.returned (some err), w') => (some (.fatal err), w')
    | (.panicked cause, w') => (some cause, w')

/-- Modelled from the spec: `mg.Deps` of the mage library, which is not part of
`src/`.  The spec's execution model is strictly sequential, and the script
only ever passes a single prerequisite, so it behaves as `serialDeps`. -/
def mgDeps (deps : List (Step σ)) (w : World σ) : Option Panic × World σ :=
  serialDeps deps w

/-- A task that first runs its prerequisites and then its own body; a failure
of the prerequisites unwinds the task without running the body. -/
def afterDeps (deps : World σ → Option Panic × World σ) (body : Step σ) : Step σ := fun w =>
  match deps w with
  | (some cause, w') => (.panicked cause, w')
  | (none, w') => body w'

def EnsureAllPreconditions (env : Env σ) : Step σ :=
  afterDeps
    (serialDeps
      [ InstallBuildRequirements env,
        EnsureVet env,
        EnsureLint env,
        EnsureFormatted env,
        EnsureStaticChecks env ])
    (fun w => (.returned none, w))

def travisComands : List (List GoString) :=
  [ ["dep", "version"],
    ["dep", "ensure"],
    ["rsync", "-a", "--quiet", "--remove-source-files", "./vendor/", "$GOPATH/src"] ]

def EnsureTravisBuildEnvironment (env : Env σ) : Step σ :=
  afterDeps (serialDeps [InstallBuildRequirements env]) (mageScript env travisComands)

def Build (env : Env σ) : Step σ :=
  afterDeps (mgDeps [EnsureAllPreconditions env])
    (fun w =>
      let r := shRun env "go" ["build", "."] w
      (.returned r.1, r.2))

def publishCommands : List (List GoString) :=
  [ ["echo", "Checking `git` tree status"],
    ["git", "diff", "--exit-code"],
    ["./buildinfo.sh"],
    ["git", "commit", "-a", "-m", "Tagging Sparta commit"],
    ["git", "push", "origin"] ]

def Publish (env : Env σ) : Step σ :=
  afterDeps (serialDeps [GenerateBuildInfo env]) (mageScript env publishCommands)

/-- The closure `testCommand` of `Test`. -/
def testCommand (env : Env σ) : Step σ := fun w =>
  let r := shRun env "go" ["test", "-cover", "-race", "./..."] w
  (.returned r.1, r.2)

def Test (env : Env σ) : Step σ :=
  afterDeps (serialDeps [EnsureAllPreconditions env, testCommand env])
    (fun w => (.returned none, w))

def TravisBuild (env : Env σ) : Step σ :=
  afterDeps (serialDeps [EnsureTravisBuildEnvironment env, Build env, Test env])
    (fun w => (.returned none, w))
/-! ## Reference notions used to state the properties -/

/-- A path is kept by the collector: its extension is `.go` and no ignore
substring occurs in it. -/
def Kept (ignore : List GoString) (p : GoString) : Prop :=
  filepathExt p = ".go" ∧ ∀ s ∈ ignore, ¬ s.data <:+: p.data

instance (ignore : List GoString) (p : GoString) : Decidable (Kept ignore p) := by
  unfold Kept; infer_instance

/-- The walk of the specification's example tree. -/
def exampleWalk : List WalkEvent :=
  [⟨"a.go", false, none⟩, ⟨"b.go", false, none⟩, ⟨"c.txt", false, none⟩,
   ⟨".vendor/d.go", false, none⟩]

/-- The invocation a command stands for: the first token is the program, the
remaining tokens are its arguments. -/
def callOf (command : List GoString) : Call :=
  ⟨command.headD "", command.tail⟩

/-- The invocations `goSourceApply` owes for a template and a file list: one
per file, the template arguments followed by that file. -/
def applyCalls (program : GoString) (args files : List GoString) : List Call :=
  files.map (fun f => ⟨program, args ++ [f]⟩)

/-- State of the outside world after the runner has been invoked on the given
calls in order and every one succeeded; `none` if one of them fails. -/
def runAllOk (env : Env σ) : List Call → σ → Option σ
  | [], s => some s
  | c :: rest, s =>
    match env.run c.cmd c.args s with
    | (none, s1) => runAllOk env rest s1
    | (some _, _) => none

/-- Fail-fast reference sequencer: invoke the runner on the calls in order and
stop at the first failure, returning it. -/
def runCalls (env : Env σ) : List Call → Step σ
  | [], w => (.returned none, w)
  | c :: rest, w =>
    match shRun env c.cmd c.args w with
    | (some e, w') => (.returned (some e), w')
    | (none, w') => runCalls env rest w'

/-- A slice header is well formed: its length does not exceed its capacity. -/
def Slice.Valid (s : Slice) : Prop := s.len ≤ s.backing.length

/-- World reached when the given steps run in order and each returns nil;
`none` as soon as one of them fails. -/
def allSucceed : List (Step σ) → World σ → Option (World σ)
  | [], w => some w
  | d :: rest, w =>
    match d w with
    | (.returned none, w') => allSucceed rest w'
    | _ => none

/-- The tasks of the magefile that declare prerequisites. -/
inductive TaskName where
  | EnsureAllPreconditions
  | EnsureTravisBuildEnvironment
  | Build
  | Publish
  | Test
  | TravisBuild
  deriving DecidableEq, Repr

/-- The task function behind each name. -/
def taskRun (env : Env σ) : TaskName → Step σ
  | .EnsureAllPreconditions => EnsureAllPreconditions env
  | .EnsureTravisBuildEnvironment => EnsureTravisBuildEnvironment env
  | .Build => Build env
  | .Publish => Publish env
  | .Test => Test env
  | .TravisBuild => TravisBuild env

/-- The prerequisites each task declares, in the order of its `mg.SerialDeps`
or `mg.Deps` call. -/
def declaredPrerequisites (env : Env σ) : TaskName → List (Step σ)
  | .EnsureAllPreconditions =>
    [InstallBuildRequirements env, EnsureVet env, EnsureLint env, EnsureFormatted env,
      EnsureStaticChecks env]
  | .EnsureTravisBuildEnvironment => [InstallBuildRequirements env]
  | .Build => [EnsureAllPreconditions env]
  | .Publish => [GenerateBuildInfo env]
  | .Test => [EnsureAllPreconditions env, testCommand env]
  | .TravisBuild => [EnsureTravisBuildEnvironment env, Build env, Test env]

/-- The part of the generated file before the time stamp. -/
def createdHead : GoString :=
  "package sparta\n\n// THIS FILE IS AUTOMATICALLY GENERATED\n// DO NOT EDIT\n// CREATED: "

/-- The part of the generated file after the time stamp, declaring the hash. -/
def hashTail (hash : GoString) : GoString :=
  "\n\n// SpartaGitHash is the commit hash of this Sparta library\nconst SpartaGitHash = \""
    ++ hash ++ "\"\n"

/-! ## Concrete worlds used to exercise the theorems -/

/-- A world whose state counts the runner invocations and clock readings made
so far.  The runner fails when that count is `failAt` and succeeds otherwise;
the walk always presents `walk`; git prints a fixed hash; the first clock
reading differs from the later ones; no argument refers to an environment
variable, so expansion changes nothing. -/
def countingEnv (failAt : Nat) (walk : List WalkEvent) : Env Nat where
  run := fun _ _ n => (if n = failAt then some "exit status 1" else none, n + 1)
  getenv := fun _ _ => "-u"
  walkEvents := fun _ => walk
  gitRevParse := fun n => (none, "0a1b2c3\n", n)
  now := fun n =>
    (if n = 0 then "2018-03-01 10:00:00 +0000 UTC" else "2018-03-01 10:05:00 +0000 UTC", n + 1)
  writeFile := fun _ _ n => (none, n)
  expand := fun arg _ => arg
  growCap := fun n => n + 1

/-- A world in which `git rev-parse HEAD` cannot be run. -/
def noGitEnv : Env Nat :=
  { countingEnv 0 [] with
    gitRevParse := fun n => (some "exec: \"git\": executable file not found in $PATH", "", n) }

/-- The initial world: nothing run, nothing written. -/
def world0 : World Nat := ⟨0, [], []⟩

/-- A walk that meets a directory whose name ends in `.go`. -/
def directoryWalk : List WalkEvent :=
  [⟨".", true, none⟩, ⟨"pkg.go", true, none⟩, ⟨"pkg.go/doc.txt", false, none⟩]

/-- A walk in which Walk reports an unreadable directory to the callback. -/
def unreadableWalk : List WalkEvent :=
  [⟨".", true, none⟩, ⟨"a.go", false, none⟩,
   ⟨"private", true, some "open private: permission denied"⟩]


/-! ## Library routines -/

theorem containsChars_iff (s substr : List Char) :
    containsChars s substr = true ↔ substr <:+: s := by
  induction s with
  | nil => simp [containsChars]
  | cons c rest ih => simp [containsChars, ih, List.infix_cons_iff]

theorem stringsContains_iff (s substr : GoString) :
    stringsContains s substr = true ↔ substr.data <:+: s.data :=
  containsChars_iff _ _

theorem extLoop_drop (path : List Char) (n : Nat) :
    extLoop path n = [] ∨ ∃ i, extLoop path n = path.drop i := by
  induction n with
  | zero => left; rfl
  | succ i ih =>
    unfold extLoop
    split
    · left; rfl
    · split
      · left; rfl
      · split
        · right; exact ⟨i, rfl⟩
        · exact ih

theorem extLoop_go (front : List Char) :
    extLoop (front ++ ['.', 'g', 'o']) (front.length + 3) = ['.', 'g', 'o'] := by
  have h2 : (front ++ ['.', 'g', 'o'])[front.length + 2]? = some 'o' := by
    rw [List.getElem?_append_right (by omega)]; simp
  have h1 : (front ++ ['.', 'g', 'o'])[front.length + 1]? = some 'g' := by
    rw [List.getElem?_append_right (by omega)]; simp
  have h0 : (front ++ ['.', 'g', 'o'])[front.length]? = some '.' := by
    rw [List.getElem?_append_right (by omega)]; simp
  rw [extLoop, h2]
  simp only [show ¬ ('o' = '/') by decide, show ¬ ('o' = '.') by decide, if_false]
  rw [extLoop, h1]
  simp only [show ¬ ('g' = '/') by decide, show ¬ ('g' = '.') by decide, if_false]
  rw [extLoop, h0]
  simp

theorem filepathExt_go_iff (p : GoString) :
    filepathExt p = ".go" ↔ ".go".data <:+ p.data := by
  constructor
  · intro h
    have hd : extLoop p.data p.data.length = ".go".data := congrArg String.data h
    rcases extLoop_drop p.data p.data.length with h0 | ⟨i, hi⟩
    · rw [h0] at hd; exact absurd hd (by decide)
    · rw [← hd, hi]; exact List.drop_suffix _ _
  · rintro ⟨front, hfront⟩
    have hlen : p.data.length = front.length + 3 := by
      rw [← hfront]; simp
    show (⟨extLoop p.data p.data.length⟩ : String) = ".go"
    rw [hlen, ← hfront]
    have := extLoop_go front
    simp only [show ".go".data = ['.', 'g', 'o'] from rfl]
    rw [this]

/-! ## The source file collector -/

theorem ignoreLoop_iff (path : GoString) (ignore : List GoString) (b : Bool) :
    ignoreLoop path ignore b = true ↔
      (ignore = [] ∧ b = true) ∨ ∃ s ∈ ignore, s.data <:+: path.data := by
  induction ignore generalizing b with
  | nil => simp [ignoreLoop]
  | cons c rest ih =>
    simp only [ignoreLoop]
    cases hc : stringsContains path c with
    | true =>
      simp only [if_true, true_iff]
      right; exact ⟨c, by simp, (stringsContains_iff _ _).1 hc⟩
    | false =>
      have hc' : ¬ c.data <:+: path.data := fun h => by
        rw [(stringsContains_iff _ _).2 h] at hc; exact absurd hc (by decide)
      rw [if_neg (by decide), ih]
      simp [hc']

theorem walker_eq (ignore files : List GoString) (ev : WalkEvent) :
    walker ignore files ev =
      (none, if Kept ignore ev.path then files ++ [ev.path] else files) := by
  unfold walker
  by_cases hk : Kept ignore ev.path
  · have h1 : ignoreLoop ev.path ignore false = false := by
      rw [← Bool.not_eq_true, ignoreLoop_iff]
      rintro (⟨_, h⟩ | ⟨s, hs, hsub⟩)
      · exact absurd h (by decide)
      · exact hk.2 s hs hsub
    simp [h1, hk, hk.1]
  · simp only [hk, if_false]
    by_cases h1 : ignoreLoop ev.path ignore false = true
    · simp [h1]
    · have h2 : ¬ filepathExt ev.path = ".go" := by
        intro hext
        apply hk
        refine ⟨hext, fun s hs hsub => h1 ?_⟩
        rw [ignoreLoop_iff]
        exact Or.inr ⟨s, hs, hsub⟩
      simp [h2]

theorem filepathWalk_walker (ignore : List GoString) (events : List WalkEvent)
    (files : List GoString) :
    filepathWalk (walker ignore) events files =
      (none, files ++ (events.map WalkEvent.path).filter (fun p => decide (Kept ignore p))) := by
  induction events generalizing files with
  | nil => simp [filepathWalk]
  | cons ev rest ih =>
    rw [filepathWalk, walker_eq]
    simp only
    rw [ih]
    by_cases hk : Kept ignore ev.path
    · simp [hk, List.filter_cons]
    · simp [hk, List.filter_cons]

theorem goSourceFilesIn_eq (ignore : List GoString) (events : List WalkEvent) :
    goSourceFilesIn ignore events =
      ((events.map WalkEvent.path).filter (fun p => decide (Kept ignore p)), none) := by
  simp [goSourceFilesIn, filepathWalk_walker]

/-! ## The fail-fast reference sequencer -/

theorem runCalls_ok (env : Env σ) (calls : List Call) (w : World σ) (s1 : σ)
    (h : runAllOk env calls w.state = some s1) :
    runCalls env calls w = (.returned none, ⟨s1, w.calls ++ calls, w.writes⟩) := by
  induction calls generalizing w with
  | nil =>
    simp only [runAllOk, Option.some.injEq] at h
    subst h
    simp [runCalls]
  | cons c rest ih =>
    simp only [runAllOk] at h
    rcases hr : env.run c.cmd c.args w.state with ⟨_ | e, s'⟩
    · rw [hr] at h
      simp only [runCalls, shRun, hr]
      rw [ih _ h]
      simp
    · rw [hr] at h
      exact absurd h (by simp)

theorem runCalls_fail (env : Env σ) (front back : List Call) (ck : Call) (w : World σ)
    (s1 s2 : σ) (e : GoError)
    (hfront : runAllOk env front w.state = some s1)
    (hk : env.run ck.cmd ck.args s1 = (some e, s2)) :
    runCalls env (front ++ ck :: back) w =
      (.returned (some e), ⟨s2, w.calls ++ (front ++ [ck]), w.writes⟩) := by
  induction front generalizing w with
  | nil =>
    simp only [runAllOk, Option.some.injEq] at hfront
    subst hfront
    simp [runCalls, shRun, hk]
  | cons c rest ih =>
    simp only [runAllOk] at hfront
    rcases hr : env.run c.cmd c.args w.state with ⟨_ | e', s'⟩
    · rw [hr] at hfront
      rw [List.cons_append, runCalls]
      simp only [shRun, hr]
      rw [ih _ hfront]
      simp
    · rw [hr] at hfront
      exact absurd hfront (by simp)

theorem runCalls_returns (env : Env σ) (calls : List Call) (w : World σ) :
    ∃ r, (runCalls env calls w).1 = .returned r := by
  induction calls generalizing w with
  | nil => exact ⟨none, rfl⟩
  | cons c rest ih =>
    simp only [runCalls]
    rcases hr : shRun env c.cmd c.args w with ⟨_ | e, w'⟩
    · exact ih w'
    · exact ⟨some e, rfl⟩

theorem runCalls_none_iff (env : Env σ) (calls : List Call) (w : World σ) :
    (runCalls env calls w).1 = .returned none ↔ (runAllOk env calls w.state).isSome = true := by
  induction calls generalizing w with
  | nil => simp [runCalls, runAllOk]
  | cons c rest ih =>
    simp only [runCalls, runAllOk, shRun]
    rcases hr : env.run c.cmd c.args w.state with ⟨_ | e, s'⟩
    · simp only
      rw [ih]
    · simp

theorem runCalls_some_split (env : Env σ) (calls : List Call) (w : World σ) (e : GoError)
    (h : (runCalls env calls w).1 = .returned (some e)) :
    ∃ front ck back s1 s2, calls = front ++ ck :: back ∧
      runAllOk env front w.state = some s1 ∧
      env.run ck.cmd ck.args s1 = (some e, s2) := by
  induction calls generalizing w with
  | nil => simp [runCalls] at h
  | cons c rest ih =>
    simp only [runCalls, shRun] at h
    rcases hr : env.run c.cmd c.args w.state with ⟨_ | e', s'⟩
    · rw [hr] at h
      simp only at h
      obtain ⟨front, ck, back, s1, s2, hsplit, hfront, hk⟩ := ih _ h
      refine ⟨c :: front, ck, back, s1, s2, by simp [hsplit], ?_, hk⟩
      simp only [runAllOk, hr]
      exact hfront
    · rw [hr] at h
      simp only [Outcome.returned.injEq, Option.some.injEq] at h
      subst h
      exact ⟨[], c, rest, w.state, s', rfl, rfl, hr⟩

/-! ## `mageScript` -/

theorem runCommand_cons (env : Env σ) (c0 : GoString) (rest : List GoString) (w : World σ) :
    runCommand env (c0 :: rest) w = some (shRun env c0 rest w) := by
  unfold runCommand
  cases rest with
  | nil => simp
  | cons a as => simp

theorem runCommand_nil (env : Env σ) (w : World σ) : runCommand env [] w = none := by
  simp [runCommand]

theorem mageScript_eq_runCalls (env : Env σ) (cmds : List (List GoString)) (w : World σ)
    (hne : ∀ c ∈ cmds, c ≠ []) :
    mageScript env cmds w = runCalls env (cmds.map callOf) w := by
  induction cmds generalizing w with
  | nil => rfl
  | cons c rest ih =>
    have hrest : ∀ c ∈ rest, c ≠ [] := fun x hx => hne x (List.mem_cons_of_mem _ hx)
    cases c with
    | nil => exact absurd rfl (hne [] (List.mem_cons_self _ _))
    | cons c0 as =>
      simp only [mageScript, runCommand_cons, List.map_cons, runCalls, callOf, List.headD_cons,
        List.tail_cons]
      rcases hr : shRun env c0 as w with ⟨_ | e, w'⟩
      · simp only
        exact ih w' hrest
      · rfl

theorem mageScript_append (env : Env σ) (front back : List (List GoString)) (w w1 : World σ)
    (h : mageScript env front w = (.returned none, w1)) :
    mageScript env (front ++ back) w = mageScript env back w1 := by
  induction front generalizing w with
  | nil =>
    simp only [mageScript, Prod.mk.injEq, true_and] at h
    subst h; rfl
  | cons c rest ih =>
    rw [List.cons_append]
    simp only [mageScript] at h ⊢
    rcases hr : runCommand env c w with _ | ⟨_ | e, w'⟩
    · rw [hr] at h; simp at h
    · rw [hr] at h
      simp only at h ⊢
      exact ih w' h
    · rw [hr] at h; simp at h


/-! ## Slices and `goSourceApply` -/

theorem take_set_self (l : List GoString) (n : Nat) (x : GoString) :
    (l.set n x).take n = l.take n := by
  induction l generalizing n with
  | nil => simp
  | cons a as ih =>
    cases n with
    | zero => simp
    | succ k => simp [ih]

theorem goAppend_valid (grow : Nat → Nat) (s : Slice) (x : GoString) (hv : s.Valid) :
    (goAppend grow s x).Valid := by
  unfold Slice.Valid at hv ⊢
  unfold goAppend
  split
  · simp only [List.length_set]; omega
  · simp only [List.length_append, List.length_take, List.length_cons, List.length_replicate]
    omega

theorem goAppend_elems (grow : Nat → Nat) (s : Slice) (x : GoString) (hv : s.Valid) :
    (goAppend grow s x).elems = s.elems ++ [x] := by
  unfold Slice.Valid at hv
  unfold goAppend Slice.elems
  split
  · rename_i hlt
    simp only
    rw [List.take_succ, List.getElem?_set_self hlt, take_set_self]
    rfl
  · rename_i hge
    simp only
    have hlen : (s.backing.take s.len).length = s.len := by
      rw [List.length_take]; omega
    have h1 : s.backing.take s.len ++ x :: List.replicate (grow s.len) "" =
        (s.backing.take s.len ++ [x]) ++ List.replicate (grow s.len) "" := by simp
    rw [h1]
    exact List.take_left' (by simp [hlen])

theorem collectArgs_spec (grow : Nat → Nat) (parts : List GoString) (s : Slice) (hv : s.Valid) :
    (collectArgs grow parts s).Valid ∧ (collectArgs grow parts s).elems = s.elems ++ parts := by
  induction parts generalizing s with
  | nil => simp [collectArgs, hv]
  | cons p rest ih =>
    simp only [collectArgs]
    obtain ⟨h1, h2⟩ := ih (goAppend grow s p) (goAppend_valid grow s p hv)
    exact ⟨h1, by rw [h2, goAppend_elems grow s p hv]; simp⟩

theorem expandInPlace_length (expand : GoString → GoString) (s : Slice) :
    (expandInPlace expand s).backing.length = s.backing.length := by
  simp only [expandInPlace, List.length_append, List.length_map, List.length_take,
    List.length_drop]
  omega

theorem expandInPlace_take (expand : GoString → GoString) (s : Slice) (k : Nat)
    (hk : k ≤ s.len) (hv : s.Valid) :
    (expandInPlace expand s).backing.take k = (s.backing.take k).map expand := by
  unfold Slice.Valid at hv
  have hlen : k ≤ ((s.backing.take s.len).map expand).length := by
    rw [List.length_map, List.length_take]; omega
  simp only [expandInPlace]
  rw [List.take_append_of_le_length hlen, ← List.map_take, List.take_take, Nat.min_eq_left hk]

/-- When expansion leaves every template argument as it is, the per-file loop
is the fail-fast run of the template followed by each file. -/
theorem applyLoop_eq_runCalls (env : Env σ) (program : GoString) (args files : List GoString)
    (commandArgs : Slice) (w : World σ)
    (hst : ∀ a ∈ args, ∀ s, env.expand a s = a)
    (hv : commandArgs.Valid) (he : commandArgs.elems = args) :
    applyLoop env program files commandArgs w = runCalls env (applyCalls program args files) w := by
  induction files generalizing commandArgs w with
  | nil => rfl
  | cons f rest ih =>
    simp only [applyLoop, applyCalls, List.map_cons, runCalls]
    rw [goAppend_elems env.growCap commandArgs f hv, he]
    rcases hr : shRun env program (args ++ [f]) w with ⟨_ | e, w'⟩
    · simp only
      apply ih
      · unfold Slice.Valid at hv ⊢
        split
        · simp only [expandInPlace_length]
          simp only [goAppend]
          split <;> simp only [List.length_set] <;> omega
        · exact hv
      · split
        · rename_i hlt
          have hva := goAppend_valid env.growCap commandArgs f hv
          have hle : commandArgs.len ≤ (goAppend env.growCap commandArgs f).len := by
            simp only [goAppend, hlt, if_true]; omega
          show List.take commandArgs.len (expandInPlace _ _).backing = args
          rw [expandInPlace_take _ _ _ hle hva]
          simp only [goAppend, hlt, if_true]
          rw [take_set_self]
          have he' : List.take commandArgs.len commandArgs.backing = args := he
          rw [he']
          calc args.map (fun arg => env.expand arg w.state)
              = args.map id := List.map_congr_left (fun a ha => hst a ha w.state)
            _ = args := List.map_id args
        · exact he
    · rfl


theorem goSourceFiles_err (events : List WalkEvent) : (goSourceFiles events).2 = none := by
  simp [goSourceFiles, goSourceFilesIn_eq]

/-- For a template whose arguments expansion leaves as they are (none refers
to an environment variable), `goSourceApply` is the fail-fast run of one call
per collected file, the template arguments followed by that file. -/
theorem goSourceApply_eq_runCalls (env : Env σ) (c0 : GoString) (args : List GoString)
    (w : World σ) (hst : ∀ a ∈ args, ∀ s, env.expand a s = a) :
    goSourceApply env (c0 :: args) w =
      runCalls env (applyCalls c0 args (goSourceFiles (env.walkEvents w.state)).1) w := by
  unfold goSourceApply
  have hsplit : goSourceFiles (env.walkEvents w.state) =
      ((goSourceFiles (env.walkEvents w.state)).1, none) := by
    rw [← goSourceFiles_err (env.walkEvents w.state)]
  rw [hsplit]
  simp only [List.length_cons, Nat.le_zero_eq, Nat.add_one_ne_zero, if_false,
    List.getElem?_cons_zero, List.drop_succ_cons, List.drop_zero]
  apply applyLoop_eq_runCalls
  · exact hst
  · split
    · exact (collectArgs_spec _ _ _ (by simp [Slice.Valid])).1
    · simp [Slice.Valid]
  · split
    · rw [(collectArgs_spec _ _ _ (by simp [Slice.Valid])).2]
      simp [Slice.elems]
    · rename_i h
      have : args = [] := by
        cases args with
        | nil => rfl
        | cons a as => simp at h
      simp [Slice.elems, this]

/-! ## Dependencies -/

theorem serialDeps_fail (front back : List (Step σ)) (d : Step σ) (w w1 w2 : World σ)
    (o : Outcome)
    (hfront : allSucceed front w = some w1) (hd : d w1 = (o, w2))
    (hfail : o ≠ .returned none) :
    ∃ cause, serialDeps (front ++ d :: back) w = (some cause, w2) ∧
      (∀ e, o = .returned (some e) → cause = .fatal e) ∧
      (∀ c, o = .panicked c → cause = c) := by
  induction front generalizing w with
  | nil =>
    simp only [allSucceed, Option.some.injEq] at hfront
    subst hfront
    simp only [List.nil_append, serialDeps, hd]
    cases o with
    | returned r =>
      cases r with
      | none => exact absurd rfl hfail
      | some e => exact ⟨.fatal e, rfl, by simp, by simp⟩
    | panicked c => exact ⟨c, rfl, by simp, by simp⟩
  | cons a rest ih =>
    simp only [allSucceed] at hfront
    rw [List.cons_append]
    simp only [serialDeps]
    rcases ha : a w with ⟨(_ | e) | c, w'⟩
    · rw [ha] at hfront
      exact ih w' hfront
    · rw [ha] at hfront; simp at hfront
    · rw [ha] at hfront; simp at hfront

/-! ## The command sequencer -/

/-- C1: for a sequence of non-empty commands in which the commands before
command k all succeed and the run of command k fails with error e, mageScript
returns exactly e, and the runner has been invoked on commands 1..k, in list
order, once each, as (first token, remaining tokens), and on nothing after
command k. -/
theorem mageScript_stops_at_first_failure (env : Env σ) (front back : List (List GoString))
    (ck : List GoString) (w : World σ) (s1 s2 : σ) (e : GoError)
    (hne : ∀ c ∈ front ++ ck :: back, c ≠ [])
    (hfront : runAllOk env (front.map callOf) w.state = some s1)
    (hk : env.run (ck.headD "") ck.tail s1 = (some e, s2)) :
    mageScript env (front ++ ck :: back) w =
        (.returned (some e), ⟨s2, w.calls ++ (front ++ [ck]).map callOf, w.writes⟩)
      ∧ (∀ (c0 : GoString) (rest : List GoString), callOf (c0 :: rest) = ⟨c0, rest⟩)
      ∧ (∀ c0 : GoString, callOf [c0] = ⟨c0, []⟩) := by
  refine ⟨?_, fun _ _ => rfl, fun _ => rfl⟩
  rw [mageScript_eq_runCalls env _ w hne, List.map_append, List.map_cons]
  rw [runCalls_fail env (front.map callOf) (back.map callOf) (callOf ck) w s1 s2 e hfront hk]
  simp

theorem mageScript_stops_at_first_failure_witness :
    (∀ c ∈ [["dep", "version"]] ++ ["dep", "ensure"] :: [["rsync", "-a", "./vendor/"], ["ls"]],
        c ≠ [])
      ∧ runAllOk (countingEnv 1 []) ([["dep", "version"]].map callOf) world0.state = some 1
      ∧ (countingEnv 1 []).run "dep" ["ensure"] 1 = (some "exit status 1", 2)
      ∧ mageScript (countingEnv 1 [])
          ([["dep", "version"]] ++ ["dep", "ensure"] :: [["rsync", "-a", "./vendor/"], ["ls"]])
          world0 =
        (.returned (some "exit status 1"),
          ⟨2, [⟨"dep", ["version"]⟩, ⟨"dep", ["ensure"]⟩], []⟩) :=
  ⟨by decide, rfl, rfl,
    (mageScript_stops_at_first_failure (countingEnv 1 []) [["dep", "version"]]
      [["rsync", "-a", "./vendor/"], ["ls"]] ["dep", "ensure"] world0 1 2 "exit status 1"
      (by decide) rfl rfl).1⟩

/-- C2: for a sequence of non-empty commands, mageScript returns nil exactly
when every command succeeds when run in order; the empty sequence returns nil
and leaves the world (runner log included) untouched; and an error it returns
is the very error the runner gave for the first failing command, every command
before that one having succeeded. -/
theorem mageScript_success_iff (env : Env σ) (cmds : List (List GoString)) (w : World σ)
    (hne : ∀ c ∈ cmds, c ≠ []) :
    mageScript env [] w = (.returned none, w)
      ∧ ((mageScript env cmds w).1 = .returned none ↔
          (runAllOk env (cmds.map callOf) w.state).isSome = true)
      ∧ (∀ e, (mageScript env cmds w).1 = .returned (some e) →
          ∃ front ck back s1 s2, cmds = front ++ ck :: back ∧
            runAllOk env (front.map callOf) w.state = some s1 ∧
            env.run (ck.headD "") ck.tail s1 = (some e, s2)) := by
  refine ⟨rfl, ?_, ?_⟩
  · rw [mageScript_eq_runCalls env cmds w hne]
    exact runCalls_none_iff env _ w
  · intro e he
    rw [mageScript_eq_runCalls env cmds w hne] at he
    obtain ⟨front, ck, back, s1, s2, hsplit, hfront, hk⟩ := runCalls_some_split env _ w e he
    obtain ⟨front', rest', hcmds, hf', hr'⟩ := List.map_eq_append_iff.1 hsplit
    obtain ⟨ck', back', hrest, hck', hb'⟩ := List.map_eq_cons_iff.1 hr'
    refine ⟨front', ck', back', s1, s2, ?_, ?_, ?_⟩
    · rw [hcmds, hrest]
    · rw [hf']; exact hfront
    · rw [← hck'] at hk; exact hk

theorem mageScript_success_iff_witness :
    (∀ c ∈ travisComands, c ≠ [])
      ∧ (mageScript (countingEnv 7 []) travisComands world0).1 = .returned none :=
  ⟨by decide,
    ((mageScript_success_iff (countingEnv 7 []) travisComands world0 (by decide)).2.1).2 rfl⟩

/-- C10: indexing eachCommand[0] faults exactly for a zero-token command.  A
sequence all of whose commands are non-empty never faults: mageScript returns
(nil or an error).  A zero-token command that is reached, the commands before
it being non-empty and having succeeded, makes mageScript panic with an
index-out-of-range fault, without invoking the runner for it or running
anything after it. -/
theorem mageScript_index_in_range (env : Env σ) :
    (∀ (c : List GoString) (w : World σ), runCommand env c w = none ↔ c = [])
      ∧ (∀ (cmds : List (List GoString)) (w : World σ), (∀ c ∈ cmds, c ≠ []) →
          ∃ r, (mageScript env cmds w).1 = .returned r)
      ∧ (∀ (front back : List (List GoString)) (w : World σ) (s1 : σ),
          (∀ c ∈ front, c ≠ []) →
          runAllOk env (front.map callOf) w.state = some s1 →
          mageScript env (front ++ [] :: back) w =
            (.panicked .indexOutOfRange, ⟨s1, w.calls ++ front.map callOf, w.writes⟩)) := by
  refine ⟨?_, ?_, ?_⟩
  · intro c w
    cases c with
    | nil => simp [runCommand_nil]
    | cons c0 rest => simp [runCommand_cons]
  · intro cmds w hne
    rw [mageScript_eq_runCalls env cmds w hne]
    exact runCalls_returns env _ w
  · intro front back w s1 hne hfront
    have h1 : mageScript env front w =
        (.returned none, ⟨s1, w.calls ++ front.map callOf, w.writes⟩) := by
      rw [mageScript_eq_runCalls env front w hne]
      exact runCalls_ok env _ w s1 hfront
    rw [mageScript_append env front ([] :: back) w _ h1]
    simp [mageScript, runCommand_nil]

theorem mageScript_index_in_range_witness :
    (∀ c ∈ [["dep", "version"]], c ≠ [])
      ∧ runAllOk (countingEnv 7 []) ([["dep", "version"]].map callOf) world0.state = some 1
      ∧ mageScript (countingEnv 7 []) ([["dep", "version"]] ++ [] :: [["dep", "ensure"]]) world0 =
          (.panicked .indexOutOfRange, ⟨1, [⟨"dep", ["version"]⟩], []⟩) :=
  ⟨by decide, rfl,
    (mageScript_index_in_range (countingEnv 7 [])).2.2 [["dep", "version"]] [["dep", "ensure"]]
      world0 1 (by decide) rfl⟩

/-! ## The source file collector: what it returns -/

/-- C3: for every sequence of entries the walk visits, goSourceFiles returns,
with a nil error, exactly the visited paths whose extension is ".go" (that is,
that end in ".go") and that contain none of the ignore substrings, in walk
order; no path occurs in the result more often than it was visited, so a walk
without repeated paths gives a result without repeated paths; and on the walk
a.go, b.go, c.txt, .vendor/d.go the result is [a.go, b.go]. -/
theorem goSourceFiles_exact (events : List WalkEvent) :
    goSourceFiles events =
        ((events.map WalkEvent.path).filter
          (fun p => decide (Kept ignoreSubdirectoryPaths p)), none)
      ∧ (∀ p : GoString, filepathExt p = ".go" ↔ ".go".data <:+ p.data)
      ∧ (∀ p, (goSourceFiles events).1.count p ≤ (events.map WalkEvent.path).count p)
      ∧ ((events.map WalkEvent.path).Nodup → (goSourceFiles events).1.Nodup)
      ∧ goSourceFiles exampleWalk = (["a.go", "b.go"], none) := by
  have h : goSourceFiles events =
      ((events.map WalkEvent.path).filter
        (fun p => decide (Kept ignoreSubdirectoryPaths p)), none) :=
    goSourceFilesIn_eq _ _
  refine ⟨h, filepathExt_go_iff, ?_, ?_, by decide⟩
  · intro p
    rw [h]
    exact (List.filter_sublist _).count_le p
  · intro hnd
    rw [h]
    exact hnd.filter _

theorem goSourceFiles_exact_witness :
    (exampleWalk.map WalkEvent.path).Nodup ∧ (goSourceFiles exampleWalk).1.Nodup :=
  ⟨by decide, (goSourceFiles_exact exampleWalk).2.2.2.1 (by decide)⟩

/-- C4: whatever the ignore list is, if one of its entries occurs anywhere in
a path as a plain substring, the walker leaves the collected list unchanged
for that path (whatever its extension, kind or reported error), and the path
is not in the result of the collector. -/
theorem walker_skips_ignored (ignore : List GoString) (events : List WalkEvent)
    (p s : GoString) (hs : s ∈ ignore) (hsub : s.data <:+: p.data) :
    (∀ (files : List GoString) (isDir : Bool) (err : Option GoError),
        walker ignore files ⟨p, isDir, err⟩ = (none, files))
      ∧ p ∉ (goSourceFilesIn ignore events).1 := by
  have hk : ¬ Kept ignore p := fun hk => hk.2 s hs hsub
  constructor
  · intro files isDir err
    rw [walker_eq]
    simp [hk]
  · rw [goSourceFilesIn_eq]
    simp [List.mem_filter, hk]

theorem walker_skips_ignored_witness :
    "vendor" ∈ [".git", "vendor"]
      ∧ "vendor".data <:+: "foovendorbar/e.go".data
      ∧ "foovendorbar/e.go" ∉
          (goSourceFilesIn [".git", "vendor"]
            [⟨"a.go", false, none⟩, ⟨"foovendorbar/e.go", false, none⟩]).1 :=
  ⟨by decide, by decide,
    (walker_skips_ignored [".git", "vendor"]
      [⟨"a.go", false, none⟩, ⟨"foovendorbar/e.go", false, none⟩]
      "foovendorbar/e.go" "vendor" (by decide) (by decide)).2⟩

/-- C8 fails on the code: the walker never tests info.IsDir(), so on a walk
that meets a directory named pkg.go the list goSourceFiles returns as the go
source files is [pkg.go]: it contains that directory, and not every path of
the result denotes a file. -/
theorem goSourceFiles_returns_directory :
    goSourceFiles directoryWalk = (["pkg.go"], none)
      ∧ (⟨"pkg.go", true, none⟩ : WalkEvent) ∈ directoryWalk
      ∧ ¬ (∀ ev ∈ directoryWalk,
            ev.path ∈ (goSourceFiles directoryWalk).1 → ev.isDir = false) := by
  refine ⟨by decide, by decide, ?_⟩
  intro h
  exact absurd (h ⟨"pkg.go", true, none⟩ (by decide) (by decide)) (by decide)

/-- Membership in the result of goSourceFiles is decided by the path alone:
visited, extension ".go", no ignore substring.  The kind of the entry is not
read, which is how a directory can get into the list of files. -/
theorem goSourceFiles_ignores_entry_kind (events : List WalkEvent) :
    (∀ p, p ∈ (goSourceFiles events).1 ↔
        (∃ ev ∈ events, ev.path = p) ∧ filepathExt p = ".go" ∧
          ∀ s ∈ ignoreSubdirectoryPaths, ¬ s.data <:+: p.data)
      ∧ (∀ kind : WalkEvent → Bool,
          goSourceFiles (events.map (fun ev => { ev with isDir := kind ev })) =
            goSourceFiles events) := by
  constructor
  · intro p
    rw [show goSourceFiles events = _ from goSourceFilesIn_eq _ _]
    simp [List.mem_filter, Kept]
  · intro kind
    rw [show goSourceFiles events = _ from goSourceFilesIn_eq _ _,
      show goSourceFiles (events.map _) = _ from goSourceFilesIn_eq _ _]
    simp [List.map_map, Function.comp_def]

/-- C7 fails on the code: the walker drops the error Walk hands it and returns
nil, so goSourceFiles returns a nil error on every walk.  On a walk that
reports an unreadable directory, goSourceFiles returns the files found with a
nil error, and goSourceApply goes on to invoke the command on them. -/
theorem goSourceFiles_drops_walk_error :
    (∃ ev ∈ unreadableWalk, ev.err ≠ none)
      ∧ goSourceFiles unreadableWalk = (["a.go"], none)
      ∧ goSourceApply (countingEnv 7 unreadableWalk) ["golint"] world0 =
          (.returned none, ⟨1, [⟨"golint", ["a.go"]⟩], []⟩)
      ∧ (∀ events, (goSourceFiles events).2 = none) :=
  ⟨by decide, by decide, rfl, goSourceFiles_err⟩

/-- Where expansion leaves the template arguments as they are, goSourceApply
invokes the runner once per collected file, in collected order, with the
template arguments followed by that file; it stops at the first failing
invocation and returns its error, and returns nil exactly when every
invocation succeeds. -/
theorem goSourceApply_stable_template (env : Env σ) (c0 : GoString) (args : List GoString)
    (w : World σ) (hst : ∀ a ∈ args, ∀ s, env.expand a s = a) :
    (∀ s1, runAllOk env
          (applyCalls c0 args (goSourceFiles (env.walkEvents w.state)).1) w.state = some s1 →
        goSourceApply env (c0 :: args) w =
          (.returned none,
            ⟨s1, w.calls ++ applyCalls c0 args (goSourceFiles (env.walkEvents w.state)).1,
              w.writes⟩))
      ∧ (∀ front f back s1 s2 e,
          (goSourceFiles (env.walkEvents w.state)).1 = front ++ f :: back →
          runAllOk env (applyCalls c0 args front) w.state = some s1 →
          env.run c0 (args ++ [f]) s1 = (some e, s2) →
          goSourceApply env (c0 :: args) w =
            (.returned (some e), ⟨s2, w.calls ++ applyCalls c0 args (front ++ [f]), w.writes⟩))
      ∧ ((goSourceApply env (c0 :: args) w).1 = .returned none ↔
          (runAllOk env
            (applyCalls c0 args (goSourceFiles (env.walkEvents w.state)).1) w.state).isSome
            = true) := by
  refine ⟨?_, ?_, ?_⟩
  · intro s1 h
    rw [goSourceApply_eq_runCalls env c0 args w hst]
    exact runCalls_ok env _ w s1 h
  · intro front f back s1 s2 e hsplit hfront hk
    rw [goSourceApply_eq_runCalls env c0 args w hst, hsplit]
    have := runCalls_fail env (applyCalls c0 args front) (applyCalls c0 args back)
      ⟨c0, args ++ [f]⟩ w s1 s2 e hfront hk
    simpa [applyCalls] using this
  · rw [goSourceApply_eq_runCalls env c0 args w hst]
    exact runCalls_none_iff env _ w

theorem goSourceApply_stable_template_example :
    goSourceApply (countingEnv 1 exampleWalk) ["go", "tool", "vet"] world0 =
      (.returned (some "exit status 1"),
        ⟨2, [⟨"go", ["tool", "vet", "a.go"]⟩, ⟨"go", ["tool", "vet", "b.go"]⟩], []⟩) :=
  (goSourceApply_stable_template (countingEnv 1 exampleWalk) "go" ["tool", "vet"] world0
      (fun _ _ _ => rfl)).2.1
    ["a.go"] "b.go" [] 1 2 "exit status 1" (by decide) rfl rfl

/-! ## Tasks and their prerequisites -/

theorem afterDeps_abort (deps : World σ → Option Panic × World σ) (body : Step σ)
    (w w2 : World σ) (cause : Panic) (h : deps w = (some cause, w2)) :
    afterDeps deps body w = (.panicked cause, w2) := by
  simp [afterDeps, h]

theorem taskRun_aborts (env : Env σ) (t : TaskName) (w w2 : World σ) (cause : Panic)
    (h : serialDeps (declaredPrerequisites env t) w = (some cause, w2)) :
    taskRun env t w = (.panicked cause, w2) := by
  cases t <;> exact afterDeps_abort _ _ w w2 cause h

/-- C6: for each of the tasks EnsureAllPreconditions,
EnsureTravisBuildEnvironment, Build, Publish, Test and TravisBuild: when the
declared prerequisites before some prerequisite d have run in declared order
and each returned nil, and d then fails (returns an error or aborts), the task
aborts with that failure in the very world d left behind: no later
prerequisite and no command of the task's own body has run, and the task does
not return normally. -/
theorem prerequisite_failure_aborts_task (env : Env σ) (t : TaskName)
    (front back : List (Step σ)) (d : Step σ) (w w1 w2 : World σ) (o : Outcome)
    (hsplit : declaredPrerequisites env t = front ++ d :: back)
    (hfront : allSucceed front w = some w1)
    (hd : d w1 = (o, w2))
    (hfail : o ≠ .returned none) :
    ∃ cause, taskRun env t w = (.panicked cause, w2) ∧
      (∀ e, o = .returned (some e) → cause = .fatal e) ∧
      (∀ c, o = .panicked c → cause = c) := by
  obtain ⟨cause, hs, h1, h2⟩ := serialDeps_fail front back d w w1 w2 o hfront hd hfail
  rw [← hsplit] at hs
  exact ⟨cause, taskRun_aborts env t w w2 cause hs, h1, h2⟩

theorem prerequisite_failure_aborts_task_witness :
    declaredPrerequisites (countingEnv 18 exampleWalk) .Test =
        [EnsureAllPreconditions (countingEnv 18 exampleWalk)] ++
          testCommand (countingEnv 18 exampleWalk) :: []
      ∧ allSucceed [EnsureAllPreconditions (countingEnv 18 exampleWalk)] world0 =
          some (EnsureAllPreconditions (countingEnv 18 exampleWalk) world0).2
      ∧ testCommand (countingEnv 18 exampleWalk)
          (EnsureAllPreconditions (countingEnv 18 exampleWalk) world0).2 =
          (.returned (some "exit status 1"),
            (testCommand (countingEnv 18 exampleWalk)
              (EnsureAllPreconditions (countingEnv 18 exampleWalk) world0).2).2)
      ∧ Outcome.returned (some "exit status 1") ≠ .returned none
      ∧ ∃ cause, taskRun (countingEnv 18 exampleWalk) .Test world0 =
            (.panicked cause,
              (testCommand (countingEnv 18 exampleWalk)
                (EnsureAllPreconditions (countingEnv 18 exampleWalk) world0).2).2) ∧
          (∀ e, Outcome.returned (some "exit status 1") = .returned (some e) →
            cause = .fatal e) ∧
          (∀ c, Outcome.returned (some "exit status 1") = .panicked c → cause = c) :=
  ⟨rfl, rfl, rfl, by decide,
    prerequisite_failure_aborts_task (countingEnv 18 exampleWalk) .Test
      [EnsureAllPreconditions (countingEnv 18 exampleWalk)] []
      (testCommand (countingEnv 18 exampleWalk)) world0
      (EnsureAllPreconditions (countingEnv 18 exampleWalk) world0).2
      (testCommand (countingEnv 18 exampleWalk)
        (EnsureAllPreconditions (countingEnv 18 exampleWalk) world0).2).2
      (.returned (some "exit status 1")) rfl rfl rfl (by decide)⟩

/-! ## `GenerateBuildInfo` -/

set_option maxRecDepth 8000 in
theorem buildInfoContent_eq (t g : GoString) :
    buildInfoContent t g = createdHead ++ t ++ hashTail (stringsTrimSpace g) := by
  rfl

/-- C9: the content GenerateBuildInfo writes, as a function of the printed
time t and the output g of git, is a fixed head ending in "// CREATED: ",
then t, then a tail that depends only on the trimmed g and declares it as
SpartaGitHash; so for the same g two time stamps give contents that agree
everywhere but in the time stamp.  A run whose git command succeeds passes
exactly this content for its own time and git output to WriteFile for
./buildinfo.go, whatever was written before, and returns WriteFile's result; a
run whose git command fails returns that error and writes nothing. -/
theorem GenerateBuildInfo_content (env : Env σ) (w : World σ) :
    (∀ t g, buildInfoContent t g = createdHead ++ t ++ hashTail (stringsTrimSpace g))
      ∧ (∀ hash, hashTail hash =
          "\n\n// SpartaGitHash is the commit hash of this Sparta library\nconst SpartaGitHash = \""
            ++ hash ++ "\"\n")
      ∧ (∀ err out s1, env.gitRevParse w.state = (some err, out, s1) →
          GenerateBuildInfo env w = (.returned (some err), ⟨s1, w.calls, w.writes⟩))
      ∧ (∀ g s1 t s2, env.gitRevParse w.state = (none, g, s1) → env.now s1 = (t, s2) →
          GenerateBuildInfo env w =
            (.returned (env.writeFile "./buildinfo.go" (buildInfoContent t g) s2).1,
              ⟨(env.writeFile "./buildinfo.go" (buildInfoContent t g) s2).2, w.calls,
                w.writes ++ [("./buildinfo.go", buildInfoContent t g)]⟩)) := by
  refine ⟨buildInfoContent_eq, fun _ => rfl, ?_, ?_⟩
  · intro err out s1 h
    simp [GenerateBuildInfo, h]
  · intro g s1 t s2 hg ht
    simp [GenerateBuildInfo, hg, ht, ioutilWriteFile]

theorem GenerateBuildInfo_without_git :
    GenerateBuildInfo noGitEnv world0 =
      (.returned (some "exec: \"git\": executable file not found in $PATH"), world0) :=
  rfl

set_option maxRecDepth 8000 in
theorem GenerateBuildInfo_content_witness :
    (countingEnv 7 []).gitRevParse (GenerateBuildInfo (countingEnv 7 []) world0).2.state =
        (none, "0a1b2c3\n", 1)
      ∧ (countingEnv 7 []).now 1 = ("2018-03-01 10:05:00 +0000 UTC", 2)
      ∧ GenerateBuildInfo (countingEnv 7 []) (GenerateBuildInfo (countingEnv 7 []) world0).2 =
          (.returned none,
            ⟨2, [],
              [("./buildinfo.go",
                  createdHead ++ "2018-03-01 10:00:00 +0000 UTC" ++ hashTail "0a1b2c3"),
               ("./buildinfo.go",
                  createdHead ++ "2018-03-01 10:05:00 +0000 UTC" ++ hashTail "0a1b2c3")]⟩) :=
  ⟨rfl, rfl,
    (GenerateBuildInfo_content (countingEnv 7 [])
      (GenerateBuildInfo (countingEnv 7 []) world0).2).2.2.2
      "0a1b2c3\n" 1 "2018-03-01 10:05:00 +0000 UTC" 2 rfl rfl⟩

end Magefile
